import Mathlib

/-!
Verification development for the OnlineArchiveSorter repository
(src/online_archive_sorter_v02_06a.py).

The Python program is shallowly embedded:

* Python `dict` (insertion ordered, assignment overwrites in place) is an
  association list `List (String × _)` mutated through `insertD` and read
  through `List.lookup`;
* pandas column values are `List (Option String)` where `none` is a missing
  cell (NaN), `dropna` removes the missing cells and `uniqueL` keeps the
  first occurrence of each value;
* Python string lowering is `lowerS`, substring containment (`in`) is
  `containsSub`;
* COM property accesses that may raise are `Option`-valued (`none` = the
  access raises, caught by the surrounding `try`/`except`);
* the backwards folder loop of `_process_folder_items` is `loopRun`, driven
  by an oracle describing what processing each position does to the live
  collection (delete the current item, leave it, or raise), together with
  items appended concurrently by the external provider.
-/

namespace ArchiveSorter

/-- Python `str.lower()`, character by character. -/
def lowerS (s : String) : String := ⟨s.data.map Char.toLower⟩

/-- Python substring containment: `needle in hay` on strings is contiguous
substring containment. -/
def containsSub (hay needle : String) : Bool := decide (needle.data <:+: hay.data)

/-- Python dict assignment `d[k] = v` on an insertion-ordered association
list: an existing key keeps its position and receives the new value, a new
key is appended at the end. -/
def insertD {α : Type} (m : List (String × α)) (k : String) (v : α) : List (String × α) :=
  if m.any (fun p => decide (p.1 = k)) then m.map (fun p => if p.1 = k then (k, v) else p)
  else m ++ [(k, v)]

/-- Python dict lookup `d[k]` / `k in d` on the association-list model. -/
def lookupD {α : Type} : List (String × α) → String → Option α
  | [], _ => none
  | p :: m, k => if p.1 = k then some p.2 else lookupD m k

/-- A compiled sender rule, the value stored by line 89 under the
lowercased address: its destination name and its sender-only flag. -/
structure EmailRule where
  dest : String
  sender_only : Bool
deriving DecidableEq

/-- A compiled keyword rule, the value stored by line 98 under the
lowercased keyword: its destination name and its match-field scope. -/
structure KeywordRule where
  dest : String
  field : String
deriving DecidableEq

abbrev EmailMap := List (String × EmailRule)

abbrev KeywordMap := List (String × KeywordRule)

/-- The two rule dictionaries built by `load_data`. -/
structure RuleMaps where
  email_rules : EmailMap
  keyword_rules : KeywordMap
deriving DecidableEq

/-- One entry of the configured `sheet_map`, together with the cell values
read from the spreadsheet: `column` holds the cells of the column named by
`info['column']` (a missing cell, pandas NaN, is `none`), `columns` holds
the cells of each column of `info['columns']` when that key is present, and
`match_field` is the optional `info['match_field']`. -/
structure RuleRow where
  rule_name : String
  destination_name : String
  column : List (Option String)
  columns : Option (List (List (Option String)))
  match_field : Option String

/-- pandas `Series.dropna()`: the missing cells are removed; present values
(including the empty string) are kept. -/
def dropna (cells : List (Option String)) : List String := cells.filterMap id

/-- pandas `Series.unique()`: first occurrence of each value, in order. -/
def uniqueL (l : List String) : List String :=
  l.foldl (fun acc a => if a ∈ acc then acc else acc ++ [a]) []

/-- The branch test of `load_data` (line 83):
`'Email' in rule_name and 'Keyword' not in rule_name`. -/
def isEmailRow (row : RuleRow) : Bool :=
  containsSub row.rule_name "Email" && !containsSub row.rule_name "Keyword"

/-- Processing of one `sheet_map` entry by the loop body of `load_data`
(lines 78-98), updating the two rule dictionaries. -/
def loadRow (st : RuleMaps) (row : RuleRow) : RuleMaps :=
  if isEmailRow row then
    { st with email_rules :=
        ((uniqueL (dropna row.column)).foldl
          (fun m addr =>
            insertD m (lowerS addr) ⟨row.destination_name, row.rule_name == "ResearchEmail"⟩)
          st.email_rules) }
  else
    { st with keyword_rules :=
        ((row.columns.getD [row.column]).foldl
          (fun m col =>
            (uniqueL (dropna col)).foldl
              (fun m kw =>
                insertD m (lowerS kw)
                  ⟨row.destination_name, row.match_field.getD "subject_only"⟩)
              m)
          st.keyword_rules) }

/-- Model of `load_data`: the rule rows are compiled in order into the two
dictionaries, starting from empty ones. -/
def load_data (rows : List RuleRow) : RuleMaps := rows.foldl loadRow ⟨[], []⟩

/-- The sequence of sender-rule writes `(key, value)` that one row performs,
in execution order. -/
def rowEmailWrites (row : RuleRow) : List (String × EmailRule) :=
  if isEmailRow row then
    (uniqueL (dropna row.column)).map
      (fun addr => (lowerS addr, ⟨row.destination_name, row.rule_name == "ResearchEmail"⟩))
  else []

/-- The sequence of keyword-rule writes `(key, value)` that one row
performs, in execution order. -/
def rowKeywordWrites (row : RuleRow) : List (String × KeywordRule) :=
  if isEmailRow row then []
  else
    ((row.columns.getD [row.column]).map
      (fun col =>
        (uniqueL (dropna col)).map
          (fun kw =>
            (lowerS kw, ⟨row.destination_name, row.match_field.getD "subject_only"⟩)))).flatten

/-- All sender-rule writes of a compilation run, in order. -/
def emailWrites (rows : List RuleRow) : List (String × EmailRule) :=
  (rows.map rowEmailWrites).flatten

/-- All keyword-rule writes of a compilation run, in order. -/
def keywordWrites (rows : List RuleRow) : List (String × KeywordRule) :=
  (rows.map rowKeywordWrites).flatten

/-- A sequence of dict assignments applied in order. -/
def applyWrites {α : Type} (m : List (String × α)) (ws : List (String × α)) :
    List (String × α) :=
  ws.foldl (fun m p => insertD m p.1 p.2) m

/-- The outcome of classifying one message, as decided by `process_email`:
no rule fired, a sender rule fired (destination, trigger, EmailMatch), or a
keyword rule fired (destination, trigger, KeywordMatch). -/
inductive Decision where
  | noMatch : Decision
  | email : String → String → Decision
  | keyword : String → String → Decision
deriving DecidableEq

/-- The per-rule keyword test of the loop body of `process_email`
(lines 162-166), on the already lowercased subject and body. -/
def kwMatchB (kw : String) (info : KeywordRule) (subject body : String) : Bool :=
  (info.field == "subject_only" && containsSub subject kw)
  || (info.field == "subject_and_body" && (containsSub subject kw || containsSub body kw))

/-- The keyword loop of `process_email` (lines 161-169): first keyword rule
in dict order whose test succeeds wins. -/
def keywordScan : KeywordMap → String → String → Decision
  | [], _, _ => .noMatch
  | (kw, info) :: rest, subject, body =>
    if kwMatchB kw info subject body then .keyword info.dest kw
    else keywordScan rest subject body

/-- The classification decision of `process_email` (lines 149-171), given
the resolved sender (`none` when `get_smtp_address` returned None) and the
raw subject and body. -/
def process_email (email_rules : EmailMap) (keyword_rules : KeywordMap)
    (sender_res : Option String) (subject body : String) : Decision :=
  let subj := lowerS subject
  let bod := lowerS body
  let sender_email := lowerS (sender_res.getD "")
  match lookupD email_rules sender_email with
  | some rule_info =>
    if !rule_info.sender_only || sender_email != "" then
      .email rule_info.dest sender_email
    else keywordScan keyword_rules subj bod
  | none => keywordScan keyword_rules subj bod

theorem lookup_replaceAll {α : Type} (m : List (String × α)) (k k' : String) (v : α)
    (h : k ≠ k') :
    lookupD (m.map (fun p => if p.1 = k' then (k', v) else p)) k = lookupD m k := by
  induction m with
  | nil => rfl
  | cons p m ih =>
    by_cases hp : p.1 = k'
    · simp [lookupD, hp, Ne.symm h, ih]
    · by_cases hk : p.1 = k <;> simp [lookupD, hp, hk, h, ih]

theorem insertD_cons_ne {α : Type} (p : String × α) (m : List (String × α)) (k' : String)
    (v : α) (h : p.1 ≠ k') :
    insertD (p :: m) k' v = p :: insertD m k' v := by
  by_cases hm : m.any (fun q => decide (q.1 = k')) = true
  · simp [insertD, h, hm]
  · simp [insertD, h, eq_false_of_ne_true hm]

theorem lookup_insertD {α : Type} (m : List (String × α)) (k k' : String) (v : α) :
    lookupD (insertD m k' v) k = if k' = k then some v else lookupD m k := by
  induction m with
  | nil => by_cases hk : k' = k <;> simp [insertD, lookupD, hk]
  | cons p m ih =>
    by_cases hp : p.1 = k'
    · have hmap : insertD (p :: m) k' v
          = (k', v) :: m.map (fun q => if q.1 = k' then (k', v) else q) := by
        simp [insertD, hp]
      rw [hmap]
      by_cases hk : k' = k
      · simp [lookupD, hk]
      · simp [lookupD, hk, lookup_replaceAll m k k' v (fun hkk => hk hkk.symm), hp.symm ▸ hk]
    · rw [insertD_cons_ne p m k' v hp]
      by_cases hk : p.1 = k
      · have hkk : k' ≠ k := fun hkk => hp (hk.trans hkk.symm)
        simp [lookupD, hk, hkk]
      · simp [lookupD, hk, ih]

theorem applyWrites_nil {α : Type} (m : List (String × α)) : applyWrites m [] = m := rfl

theorem applyWrites_append {α : Type} (m : List (String × α))
    (a b : List (String × α)) :
    applyWrites m (a ++ b) = applyWrites (applyWrites m a) b :=
  List.foldl_append _ _ _ _

theorem lookup_applyWrites {α : Type} (ws : List (String × α)) (m : List (String × α))
    (k : String) :
    lookupD (applyWrites m ws) k
      = (((ws.filter (fun p => decide (p.1 = k))).getLast?).map Prod.snd).or (lookupD m k) := by
  induction ws using List.reverseRecOn with
  | nil => simp [applyWrites]
  | append_singleton l p ih =>
    rw [applyWrites_append]
    have hstep : applyWrites (applyWrites m l) [p] = insertD (applyWrites m l) p.1 p.2 := rfl
    rw [hstep, lookup_insertD]
    by_cases hk : p.1 = k
    · simp [hk, List.filter_append]
    · simp [hk, List.filter_append, ih]

theorem loadRow_eq (st : RuleMaps) (row : RuleRow) :
    loadRow st row = ⟨applyWrites st.email_rules (rowEmailWrites row),
                      applyWrites st.keyword_rules (rowKeywordWrites row)⟩ := by
  by_cases h : isEmailRow row = true
  · simp [loadRow, rowEmailWrites, rowKeywordWrites, h, applyWrites, List.foldl_map]
  · simp [loadRow, rowEmailWrites, rowKeywordWrites, eq_false_of_ne_true h, applyWrites,
      List.foldl_flatten, List.foldl_map]

theorem foldl_loadRow_eq (rows : List RuleRow) (st : RuleMaps) :
    rows.foldl loadRow st
      = ⟨applyWrites st.email_rules (emailWrites rows),
         applyWrites st.keyword_rules (keywordWrites rows)⟩ := by
  induction rows generalizing st with
  | nil => simp [emailWrites, keywordWrites, applyWrites]
  | cons r rows ih =>
    rw [List.foldl_cons, ih, loadRow_eq]
    simp [emailWrites, keywordWrites, applyWrites_append]

/-- C1: for every sequence of rule rows compiled in order, a post-compilation
lookup of a key in the sender-rule map, and likewise in the keyword-rule map,
returns the value of the last write compiled under that key
(last-write-wins); in particular when several compiled values share a
lowercased key, the destination and flags returned are those of the last
value compiled. -/
theorem load_data_last_write_wins (rows : List RuleRow) (k : String) :
    lookupD (load_data rows).email_rules k
      = (((emailWrites rows).filter (fun p => decide (p.1 = k))).getLast?).map Prod.snd
  ∧ lookupD (load_data rows).keyword_rules k
      = (((keywordWrites rows).filter (fun p => decide (p.1 = k))).getLast?).map Prod.snd := by
  have h := foldl_loadRow_eq rows ⟨[], []⟩
  rw [load_data, h]
  constructor <;> simp [lookup_applyWrites, lookupD]

theorem keywordScan_ne_email (kr : KeywordMap) (s b d t : String) :
    keywordScan kr s b ≠ .email d t := by
  induction kr with
  | nil => simp [keywordScan]
  | cons p rest ih =>
    obtain ⟨kw, info⟩ := p
    by_cases hm : kwMatchB kw info s b = true <;> simp [keywordScan, hm, ih]

/-- C2: classification evaluates sender rules before keyword rules and stops
at the first match: whenever the resolved sender looks up to an eligible
sender rule (not sender-only, or the sender is non-empty), the decision is
that rule's EmailMatch decision, for every keyword-rule map whatsoever —
keyword rules are never consulted once a sender rule has matched. -/
theorem sender_rule_short_circuits (email_rules : EmailMap) (sender_res : Option String)
    (subject body : String) (rule_info : EmailRule)
    (h : lookupD email_rules (lowerS (sender_res.getD "")) = some rule_info)
    (helig : rule_info.sender_only = false ∨ lowerS (sender_res.getD "") ≠ "") :
    ∀ keyword_rules : KeywordMap,
      process_email email_rules keyword_rules sender_res subject body
        = .email rule_info.dest (lowerS (sender_res.getD "")) := by
  intro kr
  unfold process_email
  simp only [h]
  rcases helig with h1 | h1
  · simp [h1]
  · simp [h1]

theorem sender_rule_short_circuits_witness :
    process_email [("a@x.com", ⟨"Dest", false⟩)] [("s", ⟨"K", "subject_only"⟩)]
      (some "A@x.com") "s here" "b" = .email "Dest" "a@x.com" :=
  sender_rule_short_circuits [("a@x.com", ⟨"Dest", false⟩)] (some "A@x.com") "s here" "b"
    ⟨"Dest", false⟩ (by decide) (Or.inl rfl) [("s", ⟨"K", "subject_only"⟩)]

/-- C3: a sender rule with sender_only = true never fires when the resolved
sender is empty or null (classification falls through to the keyword scan
and cannot be an EmailMatch), and always fires — EmailMatch with the rule's
destination and the sender address as trigger — when the resolved sender is
non-empty and present as a key, regardless of subject and body. -/
theorem sender_only_rule_fires_iff_sender_nonempty (email_rules : EmailMap)
    (keyword_rules : KeywordMap) (sender_res : Option String) (subject body : String)
    (rule_info : EmailRule)
    (h : lookupD email_rules (lowerS (sender_res.getD "")) = some rule_info)
    (honly : rule_info.sender_only = true) :
    (lowerS (sender_res.getD "") = "" →
        process_email email_rules keyword_rules sender_res subject body
          = keywordScan keyword_rules (lowerS subject) (lowerS body)
      ∧ ∀ d t, process_email email_rules keyword_rules sender_res subject body
          ≠ Decision.email d t)
  ∧ (lowerS (sender_res.getD "") ≠ "" →
      process_email email_rules keyword_rules sender_res subject body
        = .email rule_info.dest (lowerS (sender_res.getD ""))) := by
  constructor
  · intro hempty
    have hres : process_email email_rules keyword_rules sender_res subject body
        = keywordScan keyword_rules (lowerS subject) (lowerS body) := by
      unfold process_email
      simp only [h, honly]
      simp [hempty]
    exact ⟨hres, fun d t => hres ▸ keywordScan_ne_email _ _ _ _ _⟩
  · intro hne
    unfold process_email
    simp only [h, honly]
    simp [hne]

theorem sender_only_rule_fires_iff_sender_nonempty_witness :
    process_email [("a@x.com", ⟨"D", true⟩)] [] (some "a@X.com") "s" "b"
      = .email "D" "a@x.com" :=
  (sender_only_rule_fires_iff_sender_nonempty [("a@x.com", ⟨"D", true⟩)] []
    (some "a@X.com") "s" "b" ⟨"D", true⟩ (by decide) rfl).2 (by decide)

/-- C9: a keyword rule matches a message exactly when its trigger occurs as
a contiguous substring of the lowercased subject (scope subject_only) or of
the lowercased subject or body (scope subject_and_body) — substring, not
token, containment — and in particular the trigger "invoice" matches the
subject "Re: INVOICE #2". -/
theorem keyword_match_iff_substring :
    (∀ (kw : String) (info : KeywordRule) (subject body : String),
       kwMatchB kw info (lowerS subject) (lowerS body) = true
         ↔ ((info.field = "subject_only" ∧ kw.data <:+: (lowerS subject).data)
            ∨ (info.field = "subject_and_body"
                ∧ (kw.data <:+: (lowerS subject).data ∨ kw.data <:+: (lowerS body).data))))
  ∧ kwMatchB "invoice" ⟨"Archive1", "subject_only"⟩ (lowerS "Re: INVOICE #2") (lowerS "")
      = true := by
  constructor
  · intro kw info subject body
    simp [kwMatchB, containsSub]
  · decide

/-- The Exchange user object returned by GetExchangeUser; accessing
PrimarySmtpAddress may raise (`none`), otherwise it yields a string. -/
structure ExchangeUser where
  primarySmtpAddress : Option String
deriving DecidableEq

/-- The item.Sender COM object: each property access may raise (`none`);
GetExchangeUser may raise (outer `none`) or legitimately return a null
user (`some none`). -/
structure SenderObj where
  addressEntryUserType : Option Int
  address : Option String
  getExchangeUser : Option (Option ExchangeUser)
deriving DecidableEq

/-- An Outlook mail item as read by `get_smtp_address`; each COM property
access may raise (`none`). -/
structure MailItem where
  sender : Option SenderObj
  senderEmailAddress : Option String
deriving DecidableEq

/-- Model of `get_smtp_address` (lines 119-133): the result, the updated cache, and
the number of external directory-resolution calls (GetExchangeUser) issued.
A `none` property models the corresponding COM access raising; the
enclosing try/except then returns None without touching the cache. -/
def get_smtp_address (smtp_cache : List (String × String)) (item : MailItem) :
    Option String × List (String × String) × Nat :=
  match item.sender with
  | none => (none, smtp_cache, 0)
  | some sender_obj =>
    match sender_obj.addressEntryUserType with
    | none => (none, smtp_cache, 0)
    | some t =>
      if t = 0 then
        match sender_obj.address with
        | none => (none, smtp_cache, 0)
        | some a =>
          match lookupD smtp_cache (lowerS a) with
          | some v => (some v, smtp_cache, 0)
          | none =>
            match sender_obj.getExchangeUser with
            | none => (none, smtp_cache, 1)
            | some none => (item.senderEmailAddress, smtp_cache, 1)
            | some (some eu) =>
              match eu.primarySmtpAddress with
              | none => (none, smtp_cache, 1)
              | some smtp => (some smtp, insertD smtp_cache (lowerS a) smtp, 1)
      else (item.senderEmailAddress, smtp_cache, 0)

/-- C5: if the first resolve stored a resolved address in the cache (the
cache changed), then the second resolve of the same item is a cache hit: it
returns the stored value, leaves the cache unchanged, and issues no
external directory-resolution call; and the first resolve itself issued
exactly one external call, so the pair issues one in total. -/
theorem resolve_twice_at_most_one_call (smtp_cache : List (String × String))
    (item : MailItem)
    (h : (get_smtp_address smtp_cache item).2.1 ≠ smtp_cache) :
    get_smtp_address (get_smtp_address smtp_cache item).2.1 item
      = ((get_smtp_address smtp_cache item).1,
         (get_smtp_address smtp_cache item).2.1, 0)
  ∧ (get_smtp_address smtp_cache item).2.2 = 1 := by
  obtain ⟨sender, sea⟩ := item
  cases sender with
  | none => exact absurd rfl h
  | some so =>
    obtain ⟨tOpt, addrOpt, euOpt⟩ := so
    cases tOpt with
    | none => exact absurd rfl h
    | some t =>
      by_cases ht : t = 0
      · subst ht
        cases addrOpt with
        | none => exact absurd rfl h
        | some a =>
          cases hcache : lookupD smtp_cache (lowerS a) with
          | some v =>
            exact absurd (by simp [get_smtp_address, hcache]) h
          | none =>
            cases euOpt with
            | none => exact absurd (by simp [get_smtp_address, hcache]) h
            | some euIn =>
              cases euIn with
              | none => exact absurd (by simp [get_smtp_address, hcache]) h
              | some eu =>
                cases hsm : eu.primarySmtpAddress with
                | none => exact absurd (by simp [get_smtp_address, hcache, hsm]) h
                | some smtp =>
                  constructor
                  · simp [get_smtp_address, hcache, hsm, lookup_insertD]
                  · simp [get_smtp_address, hcache, hsm]
      · exact absurd (by simp [get_smtp_address, ht]) h

/-- A mail item whose sender resolves through the directory service. -/
def itemResolvable : MailItem :=
  ⟨some ⟨some 0, some "EX1", some (some ⟨some "u@x.com"⟩)⟩, some "plain@x.com"⟩

theorem resolve_twice_at_most_one_call_witness :
    (get_smtp_address [] itemResolvable).2.1 ≠ []
  ∧ (get_smtp_address (get_smtp_address [] itemResolvable).2.1 itemResolvable
      = ((get_smtp_address [] itemResolvable).1,
         (get_smtp_address [] itemResolvable).2.1, 0)
    ∧ (get_smtp_address [] itemResolvable).2.2 = 1) :=
  ⟨by decide, resolve_twice_at_most_one_call [] itemResolvable (by decide)⟩

/-- A mail item whose directory-resolution call raises while the plain
sender-address field is available. -/
def itemRaisingDirectory : MailItem := ⟨some ⟨some 0, some "EX2", none⟩, some "bob@x.com"⟩

/-- C7 counterexample: on this item, `get_smtp_address` returns null even
though the plain sender-address field is available — when GetExchangeUser
raises, the except clause returns None without falling back to
SenderEmailAddress, contradicting "returns null only when that field is
also unavailable". -/
theorem get_smtp_address_null_despite_fallback :
    (get_smtp_address [] itemRaisingDirectory).1 = none
  ∧ itemRaisingDirectory.senderEmailAddress = some "bob@x.com" := by decide

/-- The resolution path of `get_smtp_address` raises an exception that its
except clause catches: some COM access in the internal-directory branch
fails before a result is produced, for the given cache state. -/
def resolveRaised (smtp_cache : List (String × String)) (item : MailItem) : Bool :=
  match item.sender with
  | none => true
  | some so =>
    match so.addressEntryUserType with
    | none => true
    | some t =>
      if t = 0 then
        match so.address with
        | none => true
        | some a =>
          match lookupD smtp_cache (lowerS a) with
          | some _ => false
          | none =>
            match so.getExchangeUser with
            | none => true
            | some none => false
            | some (some eu) => eu.primarySmtpAddress.isNone
      else false

/-- C7 amended: sender resolution never raises to its caller (it is total);
when the sender is not an internal-directory type, or internal resolution
returns no user without raising, it falls back to the plain sender-address
field; it returns null only when an exception occurred along the resolution
path or when the fallback field is itself unavailable. -/
theorem get_smtp_address_null_only_if (smtp_cache : List (String × String))
    (item : MailItem) (h : (get_smtp_address smtp_cache item).1 = none) :
    resolveRaised smtp_cache item = true ∨ item.senderEmailAddress = none := by
  obtain ⟨sender, sea⟩ := item
  cases sender with
  | none => exact Or.inl rfl
  | some so =>
    obtain ⟨tOpt, addrOpt, euOpt⟩ := so
    cases tOpt with
    | none => exact Or.inl rfl
    | some t =>
      by_cases ht : t = 0
      · subst ht
        cases addrOpt with
        | none => exact Or.inl rfl
        | some a =>
          cases hcache : lookupD smtp_cache (lowerS a) with
          | some v =>
            exact absurd h (by simp [get_smtp_address, hcache])
          | none =>
            cases euOpt with
            | none => exact Or.inl (by simp [resolveRaised, hcache])
            | some euIn =>
              cases euIn with
              | none =>
                refine Or.inr ?_
                have : (get_smtp_address smtp_cache ⟨some ⟨some 0, some a, some none⟩, sea⟩).1
                    = sea := by simp [get_smtp_address, hcache]
                rw [this] at h
                exact h
              | some eu =>
                cases hsm : eu.primarySmtpAddress with
                | none => exact Or.inl (by simp [resolveRaised, hcache, hsm])
                | some smtp =>
                  exact absurd h (by simp [get_smtp_address, hcache, hsm])
      · refine Or.inr ?_
        have : (get_smtp_address smtp_cache ⟨some ⟨some t, addrOpt, euOpt⟩, sea⟩).1 = sea := by
          simp [get_smtp_address, ht]
        rw [this] at h
        exact h

/-- A mail item whose Sender property access raises. -/
def itemNoSender : MailItem := ⟨none, some "carol@x.com"⟩

theorem get_smtp_address_null_only_if_witness :
    resolveRaised [] itemNoSender = true ∨ itemNoSender.senderEmailAddress = none :=
  get_smtp_address_null_only_if [] itemNoSender rfl

/-- What processing the item at the current position does to the live
collection: the item is removed (a Delete or Move succeeded), the item
stays (no match, non-mail item, or a failed action), or an exception is
raised mid-processing and caught by the per-item handler. -/
inductive StepAct where
  | remove : StepAct
  | keep : StepAct
  | raise : StepAct
deriving DecidableEq

/-- The externally observable effect of one loop position: what processing
does to the current item, and the items the external provider appends to
the end of the folder during this step. -/
structure StepEffect where
  act : StepAct
  appended : List Nat

/-- The backwards loop of `_process_folder_items` (lines 274-298) over a
live folder of item identifiers with 1-based positions: `i = items.Count`
is read once at entry; each iteration re-reads the item at the current
position from the live collection, processes it, and decrements the
position exactly once — also when processing raises — stopping at position
0.  Returns the trace of (position, item read there) pairs and the final
collection. -/
def loopRun (eff : Nat → StepEffect) : Nat → List Nat → List (Nat × Nat) × List Nat
  | 0, fld => ([], fld)
  | i + 1, fld =>
    match fld[i]? with
    | none => loopRun eff i (fld ++ (eff (i + 1)).appended)
    | some x =>
      match (eff (i + 1)).act with
      | .remove =>
        let rest := loopRun eff i (fld.eraseIdx i ++ (eff (i + 1)).appended)
        ((i + 1, x) :: rest.1, rest.2)
      | .keep =>
        let rest := loopRun eff i (fld ++ (eff (i + 1)).appended)
        ((i + 1, x) :: rest.1, rest.2)
      | .raise =>
        let rest := loopRun eff i (fld ++ (eff (i + 1)).appended)
        ((i + 1, x) :: rest.1, rest.2)

/-- The descending position sequence i, i-1, ..., 1. -/
def descPositions : Nat → List Nat
  | 0 => []
  | i + 1 => (i + 1) :: descPositions i

theorem descPositions_length (i : Nat) : (descPositions i).length = i := by
  induction i with
  | zero => rfl
  | succ i ih => simp [descPositions, ih]

theorem loopRun_positions (eff : Nat → StepEffect) :
    ∀ (i : Nat) (fld : List Nat), i ≤ fld.length →
      ((loopRun eff i fld).1).map Prod.fst = descPositions i := by
  intro i
  induction i with
  | zero => intro fld _; rfl
  | succ i ih =>
    intro fld hlen
    have hi : i < fld.length := hlen
    rw [loopRun, List.getElem?_eq_getElem hi]
    cases (eff (i + 1)).act with
    | remove =>
      have hlen' : i ≤ (fld.eraseIdx i ++ (eff (i + 1)).appended).length := by
        simp [List.length_eraseIdx, hi]
        omega
      simp [descPositions, ih _ hlen']
    | keep =>
      have hlen' : i ≤ (fld ++ (eff (i + 1)).appended).length := by
        simp; omega
      simp [descPositions, ih _ hlen']
    | raise =>
      have hlen' : i ≤ (fld ++ (eff (i + 1)).appended).length := by
        simp; omega
      simp [descPositions, ih _ hlen']

theorem loopRun_visited (eff : Nat → StepEffect) (init : List Nat) :
    ∀ (i : Nat) (fld : List Nat), i ≤ fld.length → (fld.take i).Sublist init →
      ∀ p ∈ (loopRun eff i fld).1, p.2 ∈ init := by
  intro i
  induction i with
  | zero => intro fld _ _ p hp; simp [loopRun] at hp
  | succ i ih =>
    intro fld hlen hsub p hp
    have hi : i < fld.length := hlen
    have hmem : fld[i] ∈ init := by
      have h1 : i < (fld.take (i + 1)).length := by
        simp [List.length_take]; omega
      have h2 : (fld.take (i + 1))[i] = fld[i] := List.getElem_take fld
      exact hsub.subset (h2 ▸ List.getElem_mem h1)
    have htake : (fld.take i).Sublist init := by
      have : fld.take i = (fld.take (i + 1)).take i := by
        rw [List.take_take]
        congr 1
        omega
      rw [this]
      exact (List.take_sublist _ _).trans hsub
    rw [loopRun, List.getElem?_eq_getElem hi] at hp
    cases hact : (eff (i + 1)).act with
    | remove =>
      simp only [hact] at hp
      have hlen' : i ≤ (fld.eraseIdx i ++ (eff (i + 1)).appended).length := by
        simp [List.length_eraseIdx, hi]
        omega
      have htk : (fld.eraseIdx i ++ (eff (i + 1)).appended).take i = fld.take i := by
        have h1 : (fld.eraseIdx i).take i = fld.take i := by
          rw [List.eraseIdx_eq_take_drop_succ, List.take_append_of_le_length
            (by simp [List.length_take]; omega), List.take_take]
          congr 1
          omega
        rw [List.take_append_of_le_length (by simp [List.length_eraseIdx, hi]; omega), h1]
      simp only [List.mem_cons] at hp
      rcases hp with hp | hp
      · subst hp; exact hmem
      · exact ih _ hlen' (htk ▸ htake) p hp
    | keep =>
      simp only [hact] at hp
      have hlen' : i ≤ (fld ++ (eff (i + 1)).appended).length := by simp; omega
      have htk : (fld ++ (eff (i + 1)).appended).take i = fld.take i :=
        List.take_append_of_le_length (by omega)
      simp only [List.mem_cons] at hp
      rcases hp with hp | hp
      · subst hp; exact hmem
      · exact ih _ hlen' (htk ▸ htake) p hp
    | raise =>
      simp only [hact] at hp
      have hlen' : i ≤ (fld ++ (eff (i + 1)).appended).length := by simp; omega
      have htk : (fld ++ (eff (i + 1)).appended).take i = fld.take i :=
        List.take_append_of_le_length (by omega)
      simp only [List.mem_cons] at hp
      rcases hp with hp | hp
      · subst hp; exact hmem
      · exact ih _ hlen' (htk ▸ htake) p hp

/-- C4: the batch loop iterates folder positions in descending order,
re-reading the item at the current position on each step: for every effect
oracle and folder the visited positions are count, count-1, ..., 1; and in
the concrete scenario of a folder [1,2,3,4,5] where processing position 3
deletes its item, the trace is (5,5),(4,4),(3,3),(2,2),(1,1) — after the
deletion the next position visited is 2, position 3 is never re-read, and
the items originally at positions 1,2,4,5 are each visited exactly once. -/
theorem descending_iteration_scenario :
    (∀ (eff : Nat → StepEffect) (fld : List Nat),
        ((loopRun eff fld.length fld).1).map Prod.fst = descPositions fld.length)
  ∧ (loopRun (fun i => ⟨if i = 3 then .remove else .keep, []⟩) 5 [1, 2, 3, 4, 5]).1
      = [(5, 5), (4, 4), (3, 3), (2, 2), (1, 1)]
  ∧ (∀ x ∈ [1, 2, 4, 5],
      ((loopRun (fun i => ⟨if i = 3 then .remove else .keep, []⟩) 5 [1, 2, 3, 4, 5]).1.map
          Prod.snd).count x = 1) := by
  refine ⟨fun eff fld => loopRun_positions eff fld.length fld le_rfl, by decide, by decide⟩

/-- C10: the loop reads the folder's item count exactly once at entry and
performs exactly that many iterations, visiting positions count, ..., 1 and
decrementing once per iteration — also when a per-item exception occurs —
hence it terminates after the initially-read count of steps; and every item
it reads was initially present, so items appended by the provider during
the run (fresh identifiers) are never visited. -/
theorem loop_count_fixed_and_appended_never_visited (eff : Nat → StepEffect)
    (init : List Nat) (hfresh : ∀ i x, x ∈ (eff i).appended → x ∉ init) :
    ((loopRun eff init.length init).1).map Prod.fst = descPositions init.length
  ∧ ((loopRun eff init.length init).1).length = init.length
  ∧ (∀ p ∈ (loopRun eff init.length init).1,
      p.2 ∈ init ∧ ∀ i, p.2 ∉ (eff i).appended) := by
  have hpos := loopRun_positions eff init.length init le_rfl
  refine ⟨hpos, ?_, ?_⟩
  · have := congrArg List.length hpos
    simpa [descPositions_length] using this
  · intro p hp
    have hmem : p.2 ∈ init :=
      loopRun_visited eff init init.length init le_rfl (by simp) p hp
    exact ⟨hmem, fun i hap => hfresh i p.2 hap hmem⟩

theorem loop_count_fixed_and_appended_never_visited_witness :
    ((loopRun (fun _ => ⟨.keep, [10]⟩) [1, 2].length [1, 2]).1).map Prod.fst
        = descPositions [1, 2].length
  ∧ ((loopRun (fun _ => ⟨.keep, [10]⟩) [1, 2].length [1, 2]).1).length = [1, 2].length
  ∧ (∀ p ∈ (loopRun (fun _ => ⟨.keep, [10]⟩) [1, 2].length [1, 2]).1,
      p.2 ∈ [1, 2] ∧ ∀ i, p.2 ∉ ((fun (_ : Nat) => (⟨.keep, [10]⟩ : StepEffect)) i).appended) :=
  loop_count_fixed_and_appended_never_visited (fun _ => ⟨.keep, [10]⟩) [1, 2]
    (by intro i x hx hmem; simp at hx; subst hx; simp at hmem)

/-- One iteration of the matched-item bookkeeping of `_process_folder_items`
(lines 279-293): on a matched and successfully actioned item the counter
`items_since_last_save` increments; when it reaches the configured save
interval `save_smtp_cache` is called (lines 109-117), and on success the
save resets the counter to zero.  State: (1-based index of the last item
processed, counter, indices of the items after which a save call was
issued). -/
def stepMatched (cache_save_interval : Nat) (saveOk : Nat → Bool)
    (st : Nat × Nat × List Nat) (matched : Bool) : Nat × Nat × List Nat :=
  let idx := st.1 + 1
  if matched then
    let c1 := st.2.1 + 1
    if cache_save_interval ≤ c1 then
      if saveOk idx then (idx, 0, st.2.2 ++ [idx]) else (idx, c1, st.2.2 ++ [idx])
    else (idx, c1, st.2.2)
  else (idx, st.2.1, st.2.2)

/-- The counter behaviour of `_process_folder_items` over a sequence of
items (matched-and-actioned flag per item), starting from a zero counter. -/
def runFolderSaves (cache_save_interval : Nat) (saveOk : Nat → Bool)
    (flags : List Bool) : Nat × Nat × List Nat :=
  flags.foldl (stepMatched cache_save_interval saveOk) (0, 0, [])

/-- Model of `run_archive_processing`: the folder pass followed by the final
unconditional `save_smtp_cache` (line 249); yields the indices of the
interval saves and the total number of persistence calls. -/
def runArchiveSaves (cache_save_interval : Nat) (saveOk : Nat → Bool)
    (flags : List Bool) : List Nat × Nat :=
  let st := runFolderSaves cache_save_interval saveOk flags
  (st.2.2, st.2.2.length + 1)

/-- C6: with a cache-flush interval of 2 and five matched, successfully
actioned items, every flush succeeding, the run performs exactly 3
persistence calls: interval flushes after the 2nd and the 4th item — the
counter standing at 1 afterwards, each flush having reset it to zero — plus
the one unconditional final flush at loop completion. -/
theorem five_matched_items_three_saves :
    runFolderSaves 2 (fun _ => true) [true, true, true, true, true] = (5, 1, [2, 4])
  ∧ runArchiveSaves 2 (fun _ => true) [true, true, true, true, true] = ([2, 4], 3) := by
  decide

theorem mem_foldl_uniqueL (l : List String) :
    ∀ (acc : List String) (a : String),
      (a ∈ l.foldl (fun acc a => if a ∈ acc then acc else acc ++ [a]) acc)
        ↔ a ∈ acc ∨ a ∈ l := by
  induction l with
  | nil => intro acc a; simp
  | cons x l ih =>
    intro acc a
    rw [List.foldl_cons, ih]
    by_cases hx : x ∈ acc
    · rw [if_pos hx]
      simp only [List.mem_cons]
      constructor
      · rintro (h | h)
        · exact Or.inl h
        · exact Or.inr (Or.inr h)
      · rintro (h | h | h)
        · exact Or.inl h
        · exact Or.inl (h ▸ hx)
        · exact Or.inr h
    · rw [if_neg hx]
      simp only [List.mem_append, List.mem_cons, List.mem_singleton]
      tauto

theorem mem_uniqueL (l : List String) (a : String) : a ∈ uniqueL l ↔ a ∈ l := by
  rw [uniqueL, mem_foldl_uniqueL]
  simp

theorem mem_dropna (cells : List (Option String)) (a : String) :
    a ∈ dropna cells ↔ some a ∈ cells := by
  simp [dropna]

theorem getLast?_mem {β : Type} (l : List β) (a : β) (h : l.getLast? = some a) :
    a ∈ l := by
  induction l using List.reverseRecOn with
  | nil => simp at h
  | append_singleton l b ih =>
    rw [List.getLast?_concat] at h
    obtain rfl : b = a := by injection h
    simp

theorem lastWrite_ne_none {α : Type} (ws : List (String × α)) (k : String) :
    ((((ws.filter (fun p => decide (p.1 = k))).getLast?).map Prod.snd) ≠ none)
      ↔ ∃ p ∈ ws, p.1 = k := by
  cases hl : (ws.filter (fun p => decide (p.1 = k))).getLast? with
  | none =>
    rw [List.getLast?_eq_none_iff, List.filter_eq_nil_iff] at hl
    constructor
    · intro h; exact absurd rfl h
    · rintro ⟨p, hp, hk⟩
      exact absurd (by simpa using hk) (by simpa using hl p hp)
  | some q =>
    have hq := getLast?_mem _ _ hl
    rw [List.mem_filter] at hq
    constructor
    · intro _
      exact ⟨q, hq.1, by simpa using hq.2⟩
    · intro _
      simp

theorem load_email_lookup (rows : List RuleRow) (k : String) :
    lookupD (load_data rows).email_rules k
      = (((emailWrites rows).filter (fun p => decide (p.1 = k))).getLast?).map Prod.snd := by
  have h := foldl_loadRow_eq rows ⟨[], []⟩
  rw [load_data, h]
  simp [lookup_applyWrites, lookupD]

theorem load_keyword_lookup (rows : List RuleRow) (k : String) :
    lookupD (load_data rows).keyword_rules k
      = (((keywordWrites rows).filter (fun p => decide (p.1 = k))).getLast?).map Prod.snd := by
  have h := foldl_loadRow_eq rows ⟨[], []⟩
  rw [load_data, h]
  simp [lookup_applyWrites, lookupD]

theorem mem_emailWrites (rows : List RuleRow) (p : String × EmailRule) :
    p ∈ emailWrites rows
      ↔ ∃ row ∈ rows, isEmailRow row = true
          ∧ ∃ c : String, some c ∈ row.column
              ∧ p = (lowerS c, ⟨row.destination_name, row.rule_name == "ResearchEmail"⟩) := by
  rw [emailWrites, List.mem_flatten]
  constructor
  · rintro ⟨l, hl, hpl⟩
    rw [List.mem_map] at hl
    obtain ⟨row, hrow, rfl⟩ := hl
    rw [rowEmailWrites] at hpl
    by_cases he : isEmailRow row = true
    · rw [if_pos he, List.mem_map] at hpl
      obtain ⟨addr, haddr, rfl⟩ := hpl
      exact ⟨row, hrow, he, addr, (mem_dropna _ _).1 ((mem_uniqueL _ _).1 haddr), rfl⟩
    · rw [if_neg he] at hpl
      simp at hpl
  · rintro ⟨row, hrow, he, c, hc, rfl⟩
    refine ⟨rowEmailWrites row, List.mem_map_of_mem _ hrow, ?_⟩
    rw [rowEmailWrites, if_pos he, List.mem_map]
    exact ⟨c, (mem_uniqueL _ _).2 ((mem_dropna _ _).2 hc), rfl⟩

theorem mem_keywordWrites (rows : List RuleRow) (p : String × KeywordRule) :
    p ∈ keywordWrites rows
      ↔ ∃ row ∈ rows, isEmailRow row = false
          ∧ ∃ col ∈ row.columns.getD [row.column],
              ∃ c : String, some c ∈ col
                ∧ p = (lowerS c,
                    ⟨row.destination_name, row.match_field.getD "subject_only"⟩) := by
  rw [keywordWrites, List.mem_flatten]
  constructor
  · rintro ⟨l, hl, hpl⟩
    rw [List.mem_map] at hl
    obtain ⟨row, hrow, rfl⟩ := hl
    rw [rowKeywordWrites] at hpl
    by_cases he : isEmailRow row = true
    · rw [if_pos he] at hpl
      simp at hpl
    · rw [if_neg he, List.mem_flatten] at hpl
      obtain ⟨l2, hl2, hpl2⟩ := hpl
      rw [List.mem_map] at hl2
      obtain ⟨col, hcol, rfl⟩ := hl2
      rw [List.mem_map] at hpl2
      obtain ⟨kw, hkw, rfl⟩ := hpl2
      exact ⟨row, hrow, Bool.eq_false_iff.2 he, col, hcol,
        kw, (mem_dropna _ _).1 ((mem_uniqueL _ _).1 hkw), rfl⟩
  · rintro ⟨row, hrow, he, col, hcol, c, hc, rfl⟩
    refine ⟨rowKeywordWrites row, List.mem_map_of_mem _ hrow, ?_⟩
    rw [rowKeywordWrites, if_neg (by simp [he]), List.mem_flatten]
    refine ⟨(uniqueL (dropna col)).map
      (fun kw => (lowerS kw, ⟨row.destination_name, row.match_field.getD "subject_only"⟩)),
      List.mem_map_of_mem _ hcol, ?_⟩
    rw [List.mem_map]
    exact ⟨c, (mem_uniqueL _ _).2 ((mem_dropna _ _).2 hc), rfl⟩

/-- A sender-rule row one of whose cells holds the (present) empty string. -/
def rowWithEmptyCell : RuleRow := ⟨"XEmail", "D", [some ""], none, none⟩

/-- C8 counterexample: a present empty-string cell does become a sender-rule
key — `dropna` removes only missing cells (NaN), and the empty string is a
present value, so compiling this row installs the key "". -/
theorem empty_value_becomes_key :
    lookupD (load_data [rowWithEmptyCell]).email_rules "" = some ⟨"D", false⟩ := by
  decide

/-- C8 amended: exactly the present (non-missing), lowercased values of the
row's configured column(s) become rule keys — a missing cell never becomes a
key, though a present empty-string value does — and every compiled keyword
rule carries some row's destination together with that row's declared match
scope, defaulting to subject_only when the row declares none. -/
theorem compiled_keys_are_present_values (rows : List RuleRow) (k : String) :
    (lookupD (load_data rows).email_rules k ≠ none
        ↔ ∃ row ∈ rows, isEmailRow row = true
            ∧ ∃ c : String, some c ∈ row.column ∧ lowerS c = k)
  ∧ (lookupD (load_data rows).keyword_rules k ≠ none
        ↔ ∃ row ∈ rows, isEmailRow row = false
            ∧ ∃ col ∈ row.columns.getD [row.column],
                ∃ c : String, some c ∈ col ∧ lowerS c = k)
  ∧ (∀ info, lookupD (load_data rows).keyword_rules k = some info
        → ∃ row ∈ rows, isEmailRow row = false
            ∧ info = ⟨row.destination_name, row.match_field.getD "subject_only"⟩) := by
  refine ⟨?_, ?_, ?_⟩
  · rw [load_email_lookup, lastWrite_ne_none]
    constructor
    · rintro ⟨p, hp, rfl⟩
      obtain ⟨row, hrow, he, c, hc, rfl⟩ := (mem_emailWrites rows p).1 hp
      exact ⟨row, hrow, he, c, hc, rfl⟩
    · rintro ⟨row, hrow, he, c, hc, rfl⟩
      exact ⟨(lowerS c, ⟨row.destination_name, row.rule_name == "ResearchEmail"⟩),
        (mem_emailWrites rows _).2 ⟨row, hrow, he, c, hc, rfl⟩, rfl⟩
  · rw [load_keyword_lookup, lastWrite_ne_none]
    constructor
    · rintro ⟨p, hp, rfl⟩
      obtain ⟨row, hrow, he, col, hcol, c, hc, rfl⟩ := (mem_keywordWrites rows p).1 hp
      exact ⟨row, hrow, he, col, hcol, c, hc, rfl⟩
    · rintro ⟨row, hrow, he, col, hcol, c, hc, rfl⟩
      exact ⟨(lowerS c, ⟨row.destination_name, row.match_field.getD "subject_only"⟩),
        (mem_keywordWrites rows _).2 ⟨row, hrow, he, col, hcol, c, hc, rfl⟩, rfl⟩
  · intro info hinfo
    rw [load_keyword_lookup] at hinfo
    cases hl : (((keywordWrites rows).filter (fun p => decide (p.1 = k))).getLast?) with
    | none => rw [hl] at hinfo; simp at hinfo
    | some q =>
      rw [hl] at hinfo
      obtain rfl : q.2 = info := by injection hinfo
      have hq := getLast?_mem _ _ hl
      rw [List.mem_filter] at hq
      obtain ⟨row, hrow, he, col, hcol, c, hc, hqeq⟩ := (mem_keywordWrites rows q).1 hq.1
      exact ⟨row, hrow, he, by rw [hqeq]⟩

/-- A keyword-rule row with no declared match scope. -/
def rowPlainKeyword : RuleRow := ⟨"MiscKeyword", "KDest", [some "Urgent"], none, none⟩

theorem compiled_keys_are_present_values_witness :
    ∃ row ∈ [rowPlainKeyword], isEmailRow row = false
      ∧ (⟨"KDest", "subject_only"⟩ : KeywordRule)
          = ⟨row.destination_name, row.match_field.getD "subject_only"⟩ :=
  (compiled_keys_are_present_values [rowPlainKeyword] "urgent").2.2
    ⟨"KDest", "subject_only"⟩ (by decide)

end ArchiveSorter
